import Mathlib

/-!
Verification development for the PI-calculator repository.

The repository contains two arbitrary-precision decimal engines and a driver:

* `BigDecimal` (src/unnamed/part_003): an unscaled-integer-plus-scale engine
  built on JavaScript `BigInt`.  JavaScript `BigInt` division truncates toward
  zero, so every `/` and `%` on `BigInt` is embedded as `Int.tdiv` / `Int.tmod`.
  The `scale` field is checked by the constructor to be a non-negative integer,
  so it is embedded as `Nat` (the negative/non-integral `TypeError` paths are
  ruled out by the type).
* `BigNumber` (src/unnamed/part_004): a string-digit engine.  JavaScript
  strings are embedded as `List Char`.  Its `while` loops carry no bound in the
  source, so they are embedded with an explicit fuel parameter; running out of
  fuel is reported as a distinguished outcome, and a computation that returns
  the out-of-fuel outcome for every fuel value is one that loops forever in the
  source.
* the driver `sqrt` of src/PI-calculator.js, a decimal Newton iteration that
  runs its loop exactly `scale` times.
-/

/-! ### Kernel-computable base-10 digits

`Nat.digits` is defined by well-founded recursion and does not reduce inside
`decide`/`rfl` proofs, so the embedding uses a structurally recursive version
with fuel (`digitsAuxF n n` always has enough fuel) and a bridge lemma to
`Nat.digits` for reasoning. -/

def digitsAuxF : ℕ → ℕ → List ℕ
  | _, 0 => []
  | 0, _ + 1 => []
  | f + 1, n + 1 => (n + 1) % 10 :: digitsAuxF f ((n + 1) / 10)

/-- Little-endian base-10 digits of `n`, kernel-computable. -/
def natDigitsLE (n : ℕ) : List ℕ := digitsAuxF n n

theorem digitsAuxF_eq_digits (f n : ℕ) (h : n ≤ f) : digitsAuxF f n = Nat.digits 10 n := by
  induction f generalizing n with
  | zero =>
    interval_cases n
    simp [digitsAuxF]
  | succ f ih =>
    cases n with
    | zero => simp [digitsAuxF]
    | succ n =>
      rw [digitsAuxF, Nat.digits_def' (by norm_num) (Nat.succ_pos n)]
      congr 1
      exact ih _ (Nat.le_of_lt_succ (Nat.lt_of_lt_of_le (Nat.div_lt_self (Nat.succ_pos n) (by norm_num)) h))

theorem natDigitsLE_eq (n : ℕ) : natDigitsLE n = Nat.digits 10 n :=
  digitsAuxF_eq_digits n n le_rfl

/-- Numeric value of a single digit character, as JavaScript `parseInt` on a
digit character: the code point minus 48. -/
def digitVal (c : Char) : ℕ := c.toNat - 48

/-- Decimal string of a natural number (JavaScript `BigInt.toString` /
number-to-string coercion for non-negative values). -/
def natToChars (n : ℕ) : List Char :=
  if n = 0 then ['0'] else ((natDigitsLE n).reverse.map Nat.digitChar)

/-- Value of a most-significant-first digit-character string, as JavaScript
`BigInt(str)` on a digit string. -/
def natFromDigits (l : List Char) : ℕ :=
  l.foldl (fun acc c => 10 * acc + digitVal c) 0

theorem digitVal_digitChar : ∀ d, d < 10 → digitVal (Nat.digitChar d) = d := by decide

theorem foldl_rev_map_digits (L : List ℕ) (hL : ∀ d ∈ L, d < 10) :
    natFromDigits ((L.reverse.map Nat.digitChar)) = Nat.ofDigits 10 L := by
  induction L with
  | nil => simp [natFromDigits, Nat.ofDigits]
  | cons d T ih =>
    have hd : d < 10 := hL d (by simp)
    have hT : ∀ x ∈ T, x < 10 := fun x hx => hL x (by simp [hx])
    have step : natFromDigits ((T.reverse.map Nat.digitChar) ++ [Nat.digitChar d]) =
        10 * natFromDigits (T.reverse.map Nat.digitChar) + d := by
      unfold natFromDigits
      rw [List.foldl_append]
      simp [digitVal_digitChar d hd]
    simp only [List.reverse_cons, List.map_append, List.map_cons, List.map_nil]
    rw [step, ih hT, Nat.ofDigits_cons]
    omega

theorem natFromDigits_natToChars (n : ℕ) : natFromDigits (natToChars n) = n := by
  by_cases h : n = 0
  · subst h; decide
  · unfold natToChars
    rw [if_neg h, natDigitsLE_eq,
      foldl_rev_map_digits _ (fun d hd => Nat.digits_lt_base (by norm_num) hd),
      Nat.ofDigits_digits]

theorem natToChars_digit_mem {c : Char} {n : ℕ} (h : c ∈ natToChars n) :
    ∃ d, d < 10 ∧ c = Nat.digitChar d := by
  unfold natToChars at h
  by_cases h0 : n = 0
  · rw [if_pos h0] at h
    simp at h
    exact ⟨0, by norm_num, by rw [h]; rfl⟩
  · rw [if_neg h0] at h
    rw [natDigitsLE_eq] at h
    obtain ⟨d, hd, rfl⟩ := List.mem_map.mp h
    exact ⟨d, Nat.digits_lt_base (by norm_num) (List.mem_reverse.mp hd), rfl⟩

/-! ### The `BigDecimal` engine (src/unnamed/part_003)

Representation: `value = unscaled / 10 ^ scale`. -/

/-- Rounding modes of the `Rounding` enumeration. -/
inductive Rounding
  | DOWN | UP | FLOOR | CEIL | HALF_UP | HALF_EVEN
  deriving DecidableEq, Repr

structure BigDecimal where
  unscaled : ℤ
  scale : ℕ
  deriving DecidableEq, Repr

/-- The `while` loop of `BigDecimal.#normalize`: strip trailing zero digits of
`unscaled` while decreasing `scale`.  JavaScript `BigInt` `%` and `/` truncate
toward zero, hence `tmod`/`tdiv`. -/
def normLoop : ℤ → ℕ → ℤ × ℕ
  | u, 0 => (u, 0)
  | u, s + 1 => if Int.tmod u 10 ≠ 0 then (u, s + 1) else normLoop (Int.tdiv u 10) s

/-- The `BigDecimal` constructor: store `unscaled`/`scale` then `#normalize`
(zero forces scale 0, otherwise trailing zeros are stripped). -/
def BigDecimal.make (u : ℤ) (s : ℕ) : BigDecimal :=
  if u = 0 then ⟨0, 0⟩ else ⟨(normLoop u s).1, (normLoop u s).2⟩

/-- `BigDecimal.#tenPow` (its `n < 0` guard is unreachable here since `n : ℕ`). -/
def tenPow (n : ℕ) : ℤ := 10 ^ n

/-- `BigDecimal.#alignScales`: bring both operands to the larger scale. -/
def alignScales (a b : BigDecimal) : ℤ × ℤ × ℕ :=
  if a.scale = b.scale then (a.unscaled, b.unscaled, a.scale)
  else if a.scale > b.scale then (a.unscaled, b.unscaled * tenPow (a.scale - b.scale), a.scale)
  else (a.unscaled * tenPow (b.scale - a.scale), b.unscaled, b.scale)

/-- `BigDecimal.compareTo` (the `other` operand is already a `BigDecimal`;
`BigDecimal.from` on a `BigDecimal` copies it through the constructor, which is
the identity on already-normalized values). -/
def BigDecimal.compareTo (a b : BigDecimal) : ℤ :=
  let p := alignScales a b
  if p.1 = p.2.1 then 0 else if p.1 > p.2.1 then 1 else -1

def BigDecimal.add (a b : BigDecimal) : BigDecimal :=
  let p := alignScales a b
  BigDecimal.make (p.1 + p.2.1) p.2.2

def BigDecimal.sub (a b : BigDecimal) : BigDecimal :=
  let p := alignScales a b
  BigDecimal.make (p.1 - p.2.1) p.2.2

def BigDecimal.mul (a b : BigDecimal) : BigDecimal :=
  BigDecimal.make (a.unscaled * b.unscaled) (a.scale + b.scale)

/-- Error conditions thrown by `div` and `sqrt` (`RangeError`s in the source). -/
inductive ArithErr
  | divByZero | nonTerminating | negSqrt
  deriving DecidableEq, Repr

/-- `BigDecimal.#applyRounding`. -/
def applyRounding (q r d : ℤ) (mode : Rounding) (positiveSign : Bool) : ℤ :=
  if r = 0 then q
  else
    let absR2 := 2 * (if r < 0 then -r else r)
    let absD := if d < 0 then -d else d
    let isHalf := absR2 = absD
    let greaterHalf := absR2 > absD
    let sign : ℤ := if positiveSign then 1 else -1
    match mode with
    | Rounding.DOWN => q
    | Rounding.UP => q + sign
    | Rounding.FLOOR => if positiveSign then q else q - 1
    | Rounding.CEIL => if positiveSign then q + 1 else q
    | Rounding.HALF_UP => if greaterHalf ∨ isHalf then q + sign else q
    | Rounding.HALF_EVEN =>
        if greaterHalf then q + sign
        else if isHalf then (if Int.tmod q 2 = 0 then q else q + sign) else q

/-- `BigDecimal.#roundQuotient`. -/
def roundQuotient (q r d : ℤ) (mode : Rounding) : ℤ :=
  applyRounding q r d mode (decide (q ≥ 0))

/-- `BigDecimal.div`.  `sc = none` is the omitted-scale (exact division) call;
the requested scale is a `Nat` (the negative/non-integral `TypeError` path is
ruled out by the type).  The source defaults `rounding` to `HALF_EVEN`; here it
is always passed explicitly. -/
def BigDecimal.div (a b : BigDecimal) (sc : Option ℕ) (rounding : Rounding) :
    Except ArithErr BigDecimal :=
  if b.unscaled = 0 then Except.error ArithErr.divByZero
  else
    match sc with
    | none =>
        let shift : ℤ := (b.scale : ℤ) - (a.scale : ℤ)
        if 0 ≤ shift then
          let numerator := a.unscaled * tenPow shift.toNat
          let q := Int.tdiv numerator b.unscaled
          let r := Int.tmod numerator b.unscaled
          if r ≠ 0 then Except.error ArithErr.nonTerminating
          else Except.ok (BigDecimal.make q 0)
        else
          let pow := tenPow (-shift).toNat
          if Int.tmod a.unscaled pow ≠ 0 then Except.error ArithErr.nonTerminating
          else
            let numerator := Int.tdiv a.unscaled pow
            let q := Int.tdiv numerator b.unscaled
            let r := Int.tmod numerator b.unscaled
            if r ≠ 0 then Except.error ArithErr.nonTerminating
            else Except.ok (BigDecimal.make q 0)
    | some scale =>
        let neededPow : ℤ := (scale : ℤ) + (b.scale : ℤ) - (a.scale : ℤ)
        if neededPow < 0 then
          let divisor := tenPow (-neededPow).toNat
          let num := Int.tdiv a.unscaled divisor
          let remPre := Int.tmod a.unscaled divisor
          let q := Int.tdiv num b.unscaled
          let r := Int.tmod num b.unscaled
          let result := if r ≠ 0 ∨ remPre ≠ 0 then applyRounding q 1 2 rounding (decide (q ≥ 0)) else q
          Except.ok (BigDecimal.make result scale)
        else
          let factor := tenPow neededPow.toNat
          let numerator := a.unscaled * factor
          let q := Int.tdiv numerator b.unscaled
          let r := Int.tmod numerator b.unscaled
          Except.ok (BigDecimal.make (roundQuotient q r b.unscaled rounding) scale)

/-- `BigDecimal.setScale`. -/
def BigDecimal.setScale (v : BigDecimal) (scale : ℕ) (rounding : Rounding) : BigDecimal :=
  if scale = v.scale then BigDecimal.make v.unscaled v.scale
  else if scale > v.scale then BigDecimal.make (v.unscaled * tenPow (scale - v.scale)) scale
  else
    let factor := tenPow (v.scale - scale)
    let q := Int.tdiv v.unscaled factor
    let r := Int.tmod v.unscaled factor
    BigDecimal.make (applyRounding q r factor rounding (decide (v.unscaled ≥ 0))) scale

/-- `BigDecimal.#bitLength`: count right-shifts until zero. -/
def bitLen (n : ℕ) : ℕ :=
  if h : n = 0 then 0 else bitLen (n / 2) + 1
decreasing_by exact Nat.div_lt_self (Nat.pos_of_ne_zero h) (by norm_num)

/-- The `while (x1 < x0)` Newton loop of `BigDecimal.#isqrt`; it terminates
because the iterate strictly decreases whenever the loop continues. -/
def isqrtLoop (n x0 : ℕ) : ℕ :=
  let x1 := (x0 + n / x0) / 2
  if h : x1 < x0 then isqrtLoop n x1 else x0
termination_by x0
decreasing_by exact h

/-- `BigDecimal.#isqrt`: seed `2 ^ (bitLength n >> 1)` and iterate. -/
def isqrt (n : ℕ) : ℕ :=
  if n < 2 then n else isqrtLoop n (2 ^ (bitLen n / 2))

/-- `BigDecimal.sqrt`.  In the `exp < 0` branch the source computes
`I = unscaled * 10 ^ (2 * bump - 0)` (the dead local `k = 2 * bump - Iexp` is
computed but unused, and `scaleAdjust` is overwritten with `scale + bump`);
this is embedded exactly as written. -/
def BigDecimal.sqrt (v : BigDecimal) (scale : ℕ) (rounding : Rounding) :
    Except ArithErr BigDecimal :=
  if v.unscaled < 0 then Except.error ArithErr.negSqrt
  else if v.unscaled = 0 then Except.ok ⟨0, 0⟩
  else
    let exp : ℤ := 2 * (scale : ℤ) - (v.scale : ℤ)
    let p : ℕ × ℕ :=
      if 0 ≤ exp then (v.unscaled.toNat * 10 ^ exp.toNat, scale)
      else
        let Iexp := (-exp).toNat
        let bump := (Iexp + 1) / 2
        (v.unscaled.toNat * 10 ^ (2 * bump), scale + bump)
    Except.ok ((BigDecimal.make (Int.ofNat (isqrt p.1)) p.2).setScale scale rounding)

/-! ### `BigDecimal` parsing and formatting -/

/-- Whitespace recognized by the embedding of JavaScript `String.trim`. -/
def isSpaceCh (c : Char) : Bool :=
  c = ' ' || c = '\t' || c = '\n' || c = '\r'

/-- JavaScript `String.trim`: drop whitespace from both ends. -/
def trimChars (l : List Char) : List Char :=
  ((l.dropWhile isSpaceCh).reverse.dropWhile isSpaceCh).reverse

def isDigitCh (c : Char) : Bool := '0' ≤ c && c ≤ '9'

/-- Embedding of `(intPart + fracPart).replace(/^0+(?=\d)/, '') || '0'`:
leading zeros are dropped while a digit remains; an all-zero digit string
collapses to `"0"`. -/
def stripLZ (l : List Char) : List Char :=
  let t := l.dropWhile (fun c => c = '0')
  if t = [] then ['0'] else t

/-- `BigDecimal.from` on a string argument.  `none` models the thrown
`SyntaxError`.  The regular expression `^[-+]?\d*(?:\.\d*)?$` is embedded as:
after removing one leading sign, everything before the first `.` and
everything after it must be digit characters (when there is no `.`, the whole
body must be digits); `parts[0] || '0'` and `parts[1] || ''` give the empty
defaults. -/
def fromChars (x : List Char) : Option BigDecimal :=
  let s := trimChars x
  let neg := s.head? = some '-'
  let body := if s.head? = some '-' ∨ s.head? = some '+' then s.tail else s
  let ip := body.takeWhile (fun c => c ≠ '.')
  let rest := body.dropWhile (fun c => c ≠ '.')
  let fp := rest.tail
  if ip.all isDigitCh ∧ fp.all isDigitCh then
    let intPart := if ip = [] then ['0'] else ip
    let scale := fp.length
    let unscaledStr := stripLZ (intPart ++ fp)
    some (BigDecimal.make ((if neg then -1 else 1) * (natFromDigits unscaledStr : ℤ)) scale)
  else none

/-- `BigDecimal.from` on a `bigint` argument: `new BigDecimal(x, 0)`. -/
def fromInt (n : ℤ) : BigDecimal := BigDecimal.make n 0

/-- JavaScript `String.padEnd(n, '0')`. -/
def padEnd (l : List Char) (n : ℕ) : List Char :=
  l ++ List.replicate (n - l.length) '0'

/-- `BigDecimal.toString`.  In the `len <= scale` branch the source appends
`s.replace(/0+$/, '').replace(/\.$/, '')` (a trailing-zero strip that is a
no-op on normalized values, kept here verbatim); the `|| '0'` fallback of that
branch is dead because the string always starts with `0.`. -/
def toChars (v : BigDecimal) : List Char :=
  if v.unscaled = 0 then ['0']
  else
    let negative := v.unscaled < 0
    let sgn : List Char := if negative then ['-'] else []
    let s := natToChars v.unscaled.natAbs
    if v.scale = 0 then sgn ++ s
    else
      let len := s.length
      if len ≤ v.scale then
        sgn ++ '0' :: '.' :: (List.replicate (v.scale - len) '0' ++
          (s.reverse.dropWhile (fun c => c = '0')).reverse)
      else
        sgn ++ (s.take (len - v.scale) ++ '.' :: padEnd (s.drop (len - v.scale)) v.scale)

/-! ### The `BigNumber` string-digit engine (src/unnamed/part_004)

Number strings are `List Char`.  JavaScript `str.split('.')` destructured to
two names yields the text before the first `.` and the text between the first
and second `.` (or nothing); `x || ''` turns the missing part into the empty
string, and the missing part and the empty part are treated identically by
every caller, so the split is embedded as a pair of lists. -/

/-- JavaScript `str.replace(c, '')` for a one-character pattern: remove the
first occurrence. -/
def removeFirst (c : Char) : List Char → List Char
  | [] => []
  | x :: xs => if x = c then xs else x :: removeFirst c xs

/-- Destructured `split('.')`: integer part and (first) fractional part. -/
def splitIF (l : List Char) : List Char × List Char :=
  let ip := l.takeWhile (fun c => c ≠ '.')
  let rest := l.dropWhile (fun c => c ≠ '.')
  (ip, rest.tail.takeWhile (fun c => c ≠ '.'))

/-- JavaScript `String.padStart(n, '0')`. -/
def padStart (l : List Char) (n : ℕ) : List Char :=
  List.replicate (n - l.length) '0' ++ l

/-- `BigNumber._normalize`: strip leading zeros of the integer part (empty
becomes `"0"`) and trailing zeros of the fractional part (empty drops the
point). -/
def bnNormalize (l : List Char) : List Char :=
  let p := splitIF l
  let t := p.1.dropWhile (fun c => c = '0')
  let ip := if t = [] then ['0'] else t
  if p.2 ≠ [] then
    let fp := (p.2.reverse.dropWhile (fun c => c = '0')).reverse
    if fp = [] then ip else ip ++ '.' :: fp
  else ip

/-- Lexicographic comparison of two character lists by code point, as
JavaScript `<`/`>` on strings (called on equal-length digit strings). -/
def lexCmp : List Char → List Char → ℤ
  | [], [] => 0
  | [], _ :: _ => -1
  | _ :: _, [] => 1
  | a :: as, b :: bs => if a < b then -1 else if b < a then 1 else lexCmp as bs

/-- `BigNumber._compare`: compare absolute values of two number strings. -/
def bnCompare (a b : List Char) : ℤ :=
  let a1 := bnNormalize (removeFirst '-' a)
  let b1 := bnNormalize (removeFirst '-' b)
  let pa := splitIF a1
  let pb := splitIF b1
  if pa.1.length > pb.1.length then 1
  else if pa.1.length < pb.1.length then -1
  else if lexCmp pa.1 pb.1 = 1 then 1
  else if lexCmp pa.1 pb.1 = -1 then -1
  else
    let len := max pa.2.length pb.2.length
    let af := padEnd pa.2 len
    let bf := padEnd pb.2 len
    if lexCmp af bf = 1 then 1 else if lexCmp af bf = -1 then -1 else 0

/-- The digit loop of `BigNumber.add`, on reversed equal-length digit strings
with a carry; the final carry is prepended via number-to-string. -/
def addLoopRev : List Char → List Char → ℕ → List Char
  | a :: as, b :: bs, carry =>
      let sum := digitVal a + digitVal b + carry
      Nat.digitChar (sum % 10) :: addLoopRev as bs (sum / 10)
  | _, _, carry => if carry > 0 then (natToChars carry).reverse else []

/-- Sign-free core of `BigNumber.add` (the code after the sign dispatch). -/
def bnAddPos (a b : List Char) : List Char :=
  let pa := splitIF a
  let pb := splitIF b
  let fracLen := max pa.2.length pb.2.length
  let aF := padEnd pa.2 fracLen
  let bF := padEnd pb.2 fracLen
  let intLen := max pa.1.length pb.1.length
  let aI := padStart pa.1 intLen
  let bI := padStart pb.1 intLen
  let numA := aI ++ aF
  let numB := bI ++ bF
  let res := (addLoopRev numA.reverse numB.reverse 0).reverse
  if fracLen > 0 then
    let rI := res.take (res.length - fracLen)
    let rF := res.drop (res.length - fracLen)
    bnNormalize ((if rI = [] then ['0'] else rI) ++ '.' :: rF)
  else bnNormalize res

/-- The digit loop of `BigNumber.subtract` on reversed digit strings with a
borrow.  The source indexes `numB` by `numA`'s indices, so `numB` is cut to
`numA`'s length before reversing (it is never shorter, see `bnSubPos`). -/
def subLoopRev : List Char → List Char → ℕ → List Char
  | a :: as, b :: bs, borrow =>
      let d : ℤ := (digitVal a : ℤ) - (digitVal b : ℤ) - (borrow : ℤ)
      if d < 0 then Nat.digitChar (d + 10).toNat :: subLoopRev as bs 1
      else Nat.digitChar d.toNat :: subLoopRev as bs 0
  | _, _, _ => []

/-- Sign-free core of `BigNumber.subtract` (the code after the sign dispatch):
compare, return `"0"` on equality, swap so the larger magnitude is on the
left, subtract digit-wise, re-attach the sign. -/
def bnSubPos (a b : List Char) : List Char :=
  let comparison := bnCompare a b
  if comparison = 0 then ['0']
  else
    let sgn : List Char := if comparison = -1 then ['-'] else []
    let a2 := if comparison = -1 then b else a
    let b2 := if comparison = -1 then a else b
    let pa := splitIF a2
    let pb := splitIF b2
    let fracLen := max pa.2.length pb.2.length
    let aF := padEnd pa.2 fracLen
    let bF := padEnd pb.2 fracLen
    let numA := pa.1 ++ aF
    let numB := (padStart pb.1 pa.1.length ++ bF).take numA.length
    let res := (subLoopRev numA.reverse numB.reverse 0).reverse
    if fracLen > 0 then
      let rI := res.take (res.length - fracLen)
      let rF := res.drop (res.length - fracLen)
      sgn ++ bnNormalize ((if rI = [] then ['0'] else rI) ++ '.' :: rF)
    else sgn ++ bnNormalize res

def startsDash (l : List Char) : Bool := l.head? = some '-'

/-- `BigNumber.add`.  The mixed-sign cases call `subtract` on sign-free
arguments, which lands in `bnSubPos`; that one delegation step is inlined. -/
def bnAdd (a b : List Char) : List Char :=
  if startsDash a && !startsDash b then bnSubPos b a.tail
  else if !startsDash a && startsDash b then bnSubPos a b.tail
  else if startsDash a && startsDash b then '-' :: bnAddPos a.tail b.tail
  else bnAddPos a b

/-- `BigNumber.subtract`.  The mixed-sign cases call `add`, which after its own
sign dispatch lands in `bnAddPos`/`bnSubPos`; those delegation steps are
inlined: `subtract(-a, b) = add(-a, -b) = -(a + b)`,
`subtract(a, -b) = add(a, b)`, `subtract(-a, -b) = subtract(b, a)`. -/
def bnSub (a b : List Char) : List Char :=
  if startsDash a && !startsDash b then '-' :: bnAddPos a.tail b
  else if !startsDash a && startsDash b then bnAddPos a b.tail
  else if startsDash a && startsDash b then bnSubPos b.tail a.tail
  else bnSubPos a b

/-- Outcome of a fuelled `BigNumber` computation: a value, the thrown
`Division by zero.` error, the thrown negative-square-root error, or fuel
exhaustion (`noFuel` for every fuel value means the source loops forever). -/
inductive BNOut
  | ok (s : List Char)
  | zeroErr
  | negErr
  | noFuel
  deriving DecidableEq, Repr

/-- The inner `while (this._compare(remainder, divisor) >= 0)` loop of
`BigNumber.divide`, with fuel; returns the remainder and the quotient digit. -/
def bnDivInner : ℕ → List Char → List Char → ℕ → Option (List Char × ℕ)
  | 0, _, _, _ => none
  | f + 1, rem, divisor, q =>
      if bnCompare rem divisor ≥ 0 then bnDivInner f (bnSub rem divisor) divisor (q + 1)
      else some (rem, q)

/-- JavaScript string indexing `stock[j]`: out of range, the `undefined` value
is concatenated, appending the characters `undefined`. -/
def stockAt (stock : List Char) (j : ℕ) : List Char :=
  match stock.get? j with
  | some c => [c]
  | none => ['u', 'n', 'd', 'e', 'f', 'i', 'n', 'e', 'd']

/-- The outer `while (i < precision)` loop of `BigNumber.divide`, with fuel. -/
def bnDivLoop (dividendLen : ℕ) (stock divisor : List Char) (precision : ℕ) :
    ℕ → List Char → List Char → ℕ → ℕ → Option (List Char)
  | 0, _, _, _, _ => none
  | f + 1, quotient, rem, i, j =>
      if i < precision then
        let rem1 := rem ++ stockAt stock j
        match bnDivInner (f + 1) rem1 divisor 0 with
        | none => none
        | some (rem2, qDigit) =>
            let q1 := quotient ++ natToChars qDigit
            let i1 := if i ≠ 0 ∨ qDigit ≠ 0 then i + 1 else i
            let j1 := j + 1
            let q2 := if j1 = dividendLen then q1 ++ ['.'] else q1
            bnDivLoop dividendLen stock divisor precision f q2 rem2 i1 j1
      else some quotient

/-- `BigNumber.divide` with fuel.  The `precision` parameter defaults to 50 in
the source; it is always passed explicitly here. -/
def bnDivide (fuel : ℕ) (a b : List Char) (precision : ℕ) : BNOut :=
  if b = ['0'] ∨ b = ['-', '0'] then BNOut.zeroErr
  else if a = ['0'] ∨ a = ['-', '0'] then BNOut.ok ['0']
  else
    let sgn : List Char :=
      if (startsDash a && !startsDash b) || (!startsDash a && startsDash b) then ['-'] else []
    let aNS := removeFirst '-' a
    let bNS := removeFirst '-' b
    let bFracLen := (splitIF bNS).2.length
    let divisor0 := bnNormalize (removeFirst '.' bNS)
    let aFracLen := (splitIF aNS).2.length
    let dividend0 := bnNormalize (removeFirst '.' aNS)
    let dividend :=
      if bFracLen ≤ aFracLen then dividend0
      else dividend0 ++ List.replicate (bFracLen - aFracLen) '0'
    let divisor :=
      if bFracLen ≤ aFracLen then divisor0 ++ List.replicate (aFracLen - bFracLen) '0'
      else divisor0
    let stock := dividend ++ List.replicate (precision + 5) '0'
    match bnDivLoop dividend.length stock divisor precision fuel [] [] 0 0 with
    | none => BNOut.noFuel
    | some q =>
        let q1 := bnNormalize q
        let q2 := if q1 = [] then ['0'] else q1
        let q3 := if q2 = ['.'] then ['0'] else q2
        let q4 := if q3.head? = some '.' then '0' :: q3 else q3
        let q5 := if q4.getLast? = some '.' then q4 ++ ['0'] else q4
        BNOut.ok (sgn ++ q5)

/-! ### `BigNumber.sqrt` and the driver `sqrt` -/

/-- One decimal string truncated to `precision` fractional digits, as the
template `${xInt}.${xFrac.slice(0, precision)}` in `BigNumber.sqrt`. -/
def truncAt (x : List Char) (precision : ℕ) : List Char :=
  let p := splitIF x
  p.1 ++ '.' :: p.2.take precision

/-- The `for (let i = 0; i < 100; i++)` Newton loop of `BigNumber.sqrt`.
Arguments: divide fuel, the operand `n`, internal precision, requested
precision, remaining loop budget, current `x`, previous `lastX`, iterations
performed so far.  Returns the final `x` (or `none` when an inner division ran
out of fuel or threw) together with the number of loop iterations executed. -/
def bnSqrtLoop (dfuel : ℕ) (n : List Char) (ip precision : ℕ) :
    ℕ → List Char → List Char → ℕ → Option (List Char) × ℕ
  | 0, x, _, steps => (some x, steps)
  | f + 1, x, lastX, steps =>
      if x = lastX then (some x, steps)
      else
        match bnDivide dfuel n x ip with
        | BNOut.ok ndx =>
            match bnDivide dfuel (bnAdd x ndx) ['2'] ip with
            | BNOut.ok x1 =>
                let px := splitIF x1
                if px.2.length ≥ precision ∧ truncAt x1 precision = truncAt x precision then
                  (some x1, steps + 1)
                else bnSqrtLoop dfuel n ip precision f x1 x (steps + 1)
            | _ => (none, steps + 1)
        | _ => (none, steps + 1)

/-- `BigNumber.sqrt` with divide fuel, also reporting how many Newton-loop
iterations were executed (the loop itself is hard-capped at 100 by the
source). -/
def bnSqrt (dfuel : ℕ) (n : List Char) (precision : ℕ) : BNOut × ℕ :=
  if startsDash n then (BNOut.negErr, 0)
  else if n = ['0'] then (BNOut.ok ['0'], 0)
  else
    let ip := precision + 5
    let nIntLen := (splitIF n).1.length
    let x0 := '1' :: (if nIntLen > 1 then List.replicate ((nIntLen - 1) / 2) '0' else [])
    match bnSqrtLoop dfuel n ip precision 100 x0 [] 0 with
    | (none, steps) => (BNOut.noFuel, steps)
    | (some x, steps) =>
        let px := splitIF x
        let xF := if px.2.length > precision then px.2.take precision else px.2
        (BNOut.ok (bnNormalize (px.1 ++ '.' :: xF)), steps)

/-- JavaScript `indexOf('.')`: position of the first `.`, `-1` when absent. -/
def idxOfDot (l : List Char) : ℤ :=
  match l.findIdx? (fun c => c = '.') with
  | some i => (i : ℤ)
  | none => -1

/-- The `for (let i = 0; i < scale; i++)` loop of the driver `sqrt`
(src/PI-calculator.js): each iteration performs
`x = divide(add(x, divide(n, x, scale)), "2", scale)`.  Returns the final `x`
(or `none` when a division ran out of fuel or threw) and the number of
iterations executed. -/
def driverSqrtLoop (dfuel : ℕ) (n : List Char) (scale : ℕ) :
    ℕ → List Char → Option (List Char) × ℕ
  | 0, x => (some x, 0)
  | k + 1, x =>
      match bnDivide dfuel n x scale with
      | BNOut.ok t =>
          match bnDivide dfuel (bnAdd x t) ['2'] scale with
          | BNOut.ok x1 =>
              let p := driverSqrtLoop dfuel n scale k x1
              (p.1, p.2 + 1)
          | _ => (none, 1)
      | _ => (none, 1)

/-- The driver `sqrt` of src/PI-calculator.js: run the loop `scale` times,
then truncate with `x.slice(0, x.indexOf('.') + scale + 1)`. -/
def driverSqrt (dfuel : ℕ) (n : List Char) (scale : ℕ) : Option (List Char) :=
  match (driverSqrtLoop dfuel n scale scale n).1 with
  | none => none
  | some x => some (x.take (idxOfDot x + (scale : ℤ) + 1).toNat)

/-- Iteration count actually executed by the driver `sqrt` loop. -/
def driverSqrtSteps (dfuel : ℕ) (n : List Char) (scale : ℕ) : ℕ :=
  (driverSqrtLoop dfuel n scale scale n).2

/-! ### Helper lemmas about the `BigDecimal` constructor -/

theorem normLoop_fst_ne_zero {u : ℤ} (h : u ≠ 0) : ∀ s, (normLoop u s).1 ≠ 0 := by
  intro s
  induction s generalizing u with
  | zero => exact h
  | succ s ih =>
    rw [normLoop]
    by_cases hm : Int.tmod u 10 ≠ 0
    · rw [if_pos hm]; exact h
    · rw [if_neg hm]
      push_neg at hm
      obtain ⟨k, rfl⟩ := Int.dvd_of_tmod_eq_zero hm
      rw [Int.mul_tdiv_cancel_left _ (by norm_num)]
      exact ih (fun hk => h (by rw [hk, mul_zero]))

theorem normLoop_scale_le (u : ℤ) : ∀ s, (normLoop u s).2 ≤ s := by
  intro s
  induction s generalizing u with
  | zero => exact le_rfl
  | succ s ih =>
    rw [normLoop]
    by_cases hm : Int.tmod u 10 ≠ 0
    · rw [if_pos hm]
    · rw [if_neg hm]
      exact le_trans (ih _) (Nat.le_succ s)

theorem normLoop_norm {u : ℤ} (h : u ≠ 0) :
    ∀ s, (normLoop u s).2 = 0 ∨ Int.tmod (normLoop u s).1 10 ≠ 0 := by
  intro s
  induction s generalizing u with
  | zero => exact Or.inl rfl
  | succ s ih =>
    rw [normLoop]
    by_cases hm : Int.tmod u 10 ≠ 0
    · rw [if_pos hm]; exact Or.inr hm
    · rw [if_neg hm]
      push_neg at hm
      obtain ⟨k, rfl⟩ := Int.dvd_of_tmod_eq_zero hm
      rw [Int.mul_tdiv_cancel_left _ (by norm_num)]
      exact ih (fun hk => h (by rw [hk, mul_zero]))

theorem make_scale_le (u : ℤ) (s : ℕ) : (BigDecimal.make u s).scale ≤ s := by
  unfold BigDecimal.make
  by_cases h : u = 0
  · rw [if_pos h]; exact Nat.zero_le s
  · rw [if_neg h]; exact normLoop_scale_le u s

theorem make_inv (u : ℤ) (s : ℕ) :
    (BigDecimal.make u s).unscaled = 0 → (BigDecimal.make u s).scale = 0 := by
  unfold BigDecimal.make
  by_cases h : u = 0
  · rw [if_pos h]; intro; rfl
  · rw [if_neg h]
    intro hz
    exact absurd hz (normLoop_fst_ne_zero h s)

theorem make_fix {u : ℤ} (h : u ≠ 0) {s : ℕ} (h2 : s = 0 ∨ Int.tmod u 10 ≠ 0) :
    BigDecimal.make u s = ⟨u, s⟩ := by
  unfold BigDecimal.make
  rw [if_neg h]
  cases s with
  | zero => rfl
  | succ s =>
    rcases h2 with h2 | h2
    · exact absurd h2 (Nat.succ_ne_zero s)
    · rw [normLoop, if_pos h2]

theorem make_norm (u : ℤ) (s : ℕ) :
    (BigDecimal.make u s).scale = 0 ∨ Int.tmod (BigDecimal.make u s).unscaled 10 ≠ 0 := by
  unfold BigDecimal.make
  by_cases h : u = 0
  · rw [if_pos h]; exact Or.inl rfl
  · rw [if_neg h]; exact normLoop_norm h s

/-! ### Claim C10 — degenerate digit-free literals parse to zero -/

/-- C10: the degenerate strings `""`, `"+"`, `"-"` and `"."` all parse
successfully (both grammar parts may be empty) and each yields the zero value
with scale 0 rather than a `SyntaxError`. -/
theorem claim_C10 :
    fromChars [] = some ⟨0, 0⟩ ∧ fromChars ['+'] = some ⟨0, 0⟩ ∧
      fromChars ['-'] = some ⟨0, 0⟩ ∧ fromChars ['.'] = some ⟨0, 0⟩ := by
  exact ⟨rfl, rfl, rfl, rfl⟩

/-! ### Claim C1 — division by a zero divisor

`BigDecimal.div` throws `DivisionByZero` whenever the divisor's magnitude is
zero, however it was written, because parsing normalizes every spelling of
zero to `unscaled = 0`.  `BigNumber.divide`, however, only guards the literal
strings `"0"` and `"-0"`; the spelling `"0.0"` passes the guard and the inner
subtraction loop then subtracts the normalized divisor string `"0"` from the
remainder forever. -/

theorem bnDivInner_stuck {r d : List Char} (h1 : bnCompare r d ≥ 0) (h2 : bnSub r d = r) :
    ∀ f q, bnDivInner f r d q = none := by
  intro f
  induction f with
  | zero => intro q; rfl
  | succ f ih =>
    intro q
    rw [bnDivInner, if_pos h1, h2]
    exact ih (q + 1)

theorem bnDivLoop_stuck (dl : ℕ) (stock divisor : List Char) (p : ℕ) (q rem : List Char)
    (i j : ℕ) (hip : i < p)
    (hstuck : ∀ f q0, bnDivInner f (rem ++ stockAt stock j) divisor q0 = none) :
    ∀ fuel, bnDivLoop dl stock divisor p fuel q rem i j = none := by
  intro fuel
  cases fuel with
  | zero => rfl
  | succ f =>
    rw [bnDivLoop, if_pos hip]
    simp only [hstuck]

theorem bnDivide_zeroPointZero_stuck :
    ∀ fuel, bnDivide fuel ['1'] ['0', '.', '0'] 50 = BNOut.noFuel := by
  intro fuel
  have hloop : ∀ fl, bnDivLoop 2 (['1', '0'] ++ List.replicate 55 '0') ['0'] 50 fl [] [] 0 0 = none := by
    refine bnDivLoop_stuck 2 _ ['0'] 50 [] [] 0 0 (by norm_num) ?_
    have h0 : ([] : List Char) ++ stockAt (['1', '0'] ++ List.replicate 55 '0') 0 = ['1'] := by decide
    rw [h0]
    exact bnDivInner_stuck (by decide) (by decide)
  cases fuel with
  | zero => rfl
  | succ f =>
    show (match bnDivLoop 2 (['1', '0'] ++ List.replicate 55 '0') ['0'] 50 (f + 1) [] [] 0 0 with
          | none => BNOut.noFuel
          | some q =>
              let q1 := bnNormalize q
              let q2 := if q1 = [] then ['0'] else q1
              let q3 := if q2 = ['.'] then ['0'] else q2
              let q4 := if q3.head? = some '.' then '0' :: q3 else q3
              let q5 := if q4.getLast? = some '.' then q4 ++ ['0'] else q4
              BNOut.ok ([] ++ q5)) = BNOut.noFuel
    rw [hloop (f + 1)]

/-- C1 (code bug): the `BigDecimal` engine always throws `DivisionByZero` when
the divisor's magnitude is zero, but `BigNumber.divide` only guards the
literal spellings `"0"` and `"-0"`: the zero divisor `"0.0"` passes the guard
and the division then loops forever (its inner loop subtracts the normalized
divisor string `"0"` from the remainder without progress), so it neither fails
with a division-by-zero condition nor terminates — contradicting the claim for
the string engine. -/
theorem claim_C1 :
    (∀ (a b : BigDecimal) (sc : Option ℕ) (m : Rounding), b.unscaled = 0 →
        BigDecimal.div a b sc m = Except.error ArithErr.divByZero) ∧
    (¬ (['0', '.', '0'] = ['0'] ∨ ['0', '.', '0'] = ['-', '0'])) ∧
    (∀ fuel, bnDivide fuel ['1'] ['0', '.', '0'] 50 = BNOut.noFuel) := by
  refine ⟨?_, by decide, bnDivide_zeroPointZero_stuck⟩
  intro a b sc m h
  unfold BigDecimal.div
  rw [if_pos h]

theorem claim_C1_witness :
    BigDecimal.div ⟨1, 0⟩ ⟨0, 0⟩ (some 5) Rounding.HALF_EVEN = Except.error ArithErr.divByZero :=
  claim_C1.1 ⟨1, 0⟩ ⟨0, 0⟩ (some 5) Rounding.HALF_EVEN rfl

/-! ### Claim C2 — omitted target scale means exact division

`BigDecimal.div` with the scale omitted does fail with `NonTerminatingDivision`
exactly when the scale-aligned integer division has a nonzero remainder.  But
`BigNumber.divide` has no omitted-precision mode at all: the `precision`
parameter silently defaults to 50 and a truncated result is returned instead
of a failure. -/

/-- C2 counterexample: calling the string engine's divide on `1 / 3` with the
precision omitted (so the default 50 applies) returns the truncated digit
string `0.333...3` instead of failing with a non-terminating-division
condition, even though the exact quotient has a nonzero remainder. -/
theorem claim_C2_counterexample :
    bnDivide 1000 ['1'] ['3'] 50 = BNOut.ok ('0' :: '.' :: List.replicate 50 '3') ∧
    ¬ ((3 : ℤ) ∣ 1) := by
  constructor
  · decide
  · omega

/-- C2 (amended): for the `BigDecimal` engine the claim holds as stated — with
the scale omitted, `div` aligns the operands' scales, integer-divides, fails
with `NonTerminatingDivision` exactly when the aligned remainder is nonzero,
and returns the exact integer quotient otherwise.  The `BigNumber` engine
instead defaults the omitted precision to 50 and truncates (see the
counterexample). -/
theorem claim_C2 (a b : BigDecimal) (m : Rounding) (hb : b.unscaled ≠ 0) :
    (¬ ((alignScales a b).2.1 ∣ (alignScales a b).1) →
        BigDecimal.div a b none m = Except.error ArithErr.nonTerminating) ∧
    (((alignScales a b).2.1 ∣ (alignScales a b).1) →
        BigDecimal.div a b none m =
          Except.ok (BigDecimal.make (Int.tdiv (alignScales a b).1 (alignScales a b).2.1) 0)) := by
  have hten : ∀ k : ℕ, tenPow k ≠ 0 := fun k => by unfold tenPow; positivity
  have htmodIff : ∀ A B : ℤ, (Int.tmod A B = 0 ↔ B ∣ A) :=
    fun A B => ⟨Int.dvd_of_tmod_eq_zero, Int.tmod_eq_zero_of_dvd⟩
  simp only [BigDecimal.div, alignScales]
  rw [if_neg hb]
  rcases Nat.lt_trichotomy a.scale b.scale with hlt | heq | hgt
  · -- a.scale < b.scale : aligned pair is (a.u * 10 ^ (bs - as), b.u)
    rw [if_neg (Nat.ne_of_lt hlt), if_neg (by omega)]
    have h0 : (0 : ℤ) ≤ (b.scale : ℤ) - (a.scale : ℤ) := by omega
    rw [if_pos h0]
    have hnat : ((b.scale : ℤ) - (a.scale : ℤ)).toNat = b.scale - a.scale := by omega
    rw [hnat]
    constructor
    · intro hdvd
      rw [if_pos (fun hz => hdvd ((htmodIff _ _).mp hz))]
    · intro hdvd
      rw [if_neg (by simpa using (htmodIff _ _).mpr hdvd)]
  · -- equal scales : aligned pair is (a.u, b.u)
    rw [if_pos heq, heq]
    have h0 : (0 : ℤ) ≤ (b.scale : ℤ) - (b.scale : ℤ) := by omega
    rw [if_pos h0]
    have hone : a.unscaled * tenPow ((b.scale : ℤ) - (b.scale : ℤ)).toNat = a.unscaled := by
      rw [show ((b.scale : ℤ) - (b.scale : ℤ)).toNat = 0 by omega]
      unfold tenPow
      ring
    rw [hone]
    constructor
    · intro hdvd
      rw [if_pos (fun hz => hdvd ((htmodIff _ _).mp hz))]
    · intro hdvd
      rw [if_neg (by simpa using (htmodIff _ _).mpr hdvd)]
  · -- a.scale > b.scale : aligned pair is (a.u, b.u * 10 ^ (as - bs))
    rw [if_neg (by omega), if_pos hgt]
    have h0 : ¬ ((0 : ℤ) ≤ (b.scale : ℤ) - (a.scale : ℤ)) := by omega
    rw [if_neg h0]
    have hnat : (-((b.scale : ℤ) - (a.scale : ℤ))).toNat = a.scale - b.scale := by omega
    rw [hnat]
    set pow := tenPow (a.scale - b.scale) with hpow
    by_cases hdp : Int.tmod a.unscaled pow = 0
    · obtain ⟨k, hk⟩ := (htmodIff _ _).mp hdp
      rw [if_neg (by simpa using hdp)]
      have hnum : Int.tdiv a.unscaled pow = k := by
        rw [hk, Int.mul_tdiv_cancel_left _ (hten _)]
      rw [hnum]
      have hBA : (b.unscaled * pow ∣ a.unscaled) ↔ (b.unscaled ∣ k) := by
        rw [hk]
        constructor
        · rintro ⟨t, ht⟩
          refine ⟨t, ?_⟩
          have hcan : pow * k = pow * (b.unscaled * t) := by rw [ht]; ring
          exact mul_left_cancel₀ (hten _) hcan
        · rintro ⟨t, ht⟩
          exact ⟨t, by rw [ht]; ring⟩
      constructor
      · intro hdvd
        have hk2 : ¬ b.unscaled ∣ k := fun hc => hdvd (hBA.mpr hc)
        rw [if_pos (fun hz => hk2 ((htmodIff _ _).mp hz))]
      · intro hdvd
        obtain ⟨t, ht⟩ := hBA.mp hdvd
        have hq : Int.tdiv k b.unscaled = t := by
          rw [ht, Int.mul_tdiv_cancel_left _ hb]
        have hQ : Int.tdiv a.unscaled (b.unscaled * pow) = t := by
          rw [hk, ht, show pow * (b.unscaled * t) = (b.unscaled * pow) * t by ring,
            Int.mul_tdiv_cancel_left _ (mul_ne_zero hb (hten _))]
        rw [if_neg (by simpa using (htmodIff _ _).mpr ⟨t, ht⟩), hq, hQ]
    · rw [if_pos (by simpa using hdp)]
      have hnd : ¬ (b.unscaled * pow ∣ a.unscaled) := by
        intro hc
        exact hdp ((htmodIff _ _).mpr (dvd_trans (dvd_mul_left pow b.unscaled) hc))
      exact ⟨fun _ => rfl, fun hc => absurd hc hnd⟩

theorem claim_C2_witness :
    BigDecimal.div ⟨1, 0⟩ ⟨5, 1⟩ none Rounding.HALF_EVEN =
      Except.ok (BigDecimal.make (Int.tdiv (alignScales ⟨1, 0⟩ ⟨5, 1⟩).1 (alignScales ⟨1, 0⟩ ⟨5, 1⟩).2.1) 0) :=
  (claim_C2 ⟨1, 0⟩ ⟨5, 1⟩ Rounding.HALF_EVEN (by decide)).2 ⟨2, by decide⟩

/-- C3 (code bug): the digit-by-digit long-division strategy counts
`precision` significant quotient digits past the first nonzero one, not
`precision` fractional digits, so it does not match the scaled-integer
strategy truncated DOWN at that precision: `divide("100", "7", 3)` yields
`"14.2"` while `BigDecimal` division of 100 by 7 at scale 3 with DOWN yields
`"14.285"`. -/
theorem claim_C3 :
    bnDivide 1000 ['1', '0', '0'] ['7'] 3 = BNOut.ok ['1', '4', '.', '2'] ∧
    BigDecimal.div ⟨100, 0⟩ ⟨7, 0⟩ (some 3) Rounding.DOWN = Except.ok ⟨14285, 3⟩ ∧
    toChars ⟨14285, 3⟩ = ['1', '4', '.', '2', '8', '5'] ∧
    ['1', '4', '.', '2'] ≠ ['1', '4', '.', '2', '8', '5'] :=
  ⟨by decide, rfl, by decide, by decide⟩

/-! ### Claim C4 — Newton integer square root

The seed `2 ^ (bitLength(I) / 2)` undershoots `sqrt I` whenever `I` has odd
bit length and a large mantissa; the loop only moves downward, so it can stop
below the true floor square root.  `isqrt 25 = 4`, yet `5 * 5 ≤ 25`, so the
result violates `r * r ≤ I < (r + 1) * (r + 1)`; consequently
`sqrt(25)` at scale 0 returns 4 instead of 5. -/

theorem bitLen_25 : bitLen 25 = 5 := by simp [bitLen]

theorem isqrt_25 : isqrt 25 = 4 := by
  rw [isqrt, if_neg (by norm_num), bitLen_25]
  norm_num
  rw [isqrtLoop]
  norm_num

/-- C4 (code bug): the Newton iteration seeded at `2 ^ (bitlength(I) / 2)` does
not return `floor(sqrt(I))` for every `I`: at `I = 25` it returns 4, which
fails `I < (r + 1) * (r + 1)` since `5 * 5 ≤ 25`, and therefore
`sqrt(25, 0)` evaluates to 4 rather than 5. -/
theorem claim_C4 :
    isqrt 25 = 4 ∧ 5 * 5 ≤ 25 ∧ ¬ (25 < (4 + 1) * (4 + 1)) ∧
    BigDecimal.sqrt ⟨25, 0⟩ 0 Rounding.HALF_EVEN = Except.ok ⟨4, 0⟩ := by
  refine ⟨isqrt_25, by norm_num, by norm_num, ?_⟩
  have t2 : isqrt (Int.toNat 25) = 4 := isqrt_25
  simp only [BigDecimal.sqrt]
  norm_num [t2]
  decide

/-! ### Claim C6 — result scale of division at a requested scale

The quotient is constructed through the normalizing constructor, which strips
trailing zeros: dividing 1 by 2 at target scale 3 produces the value `0.5`
stored with scale 1, not scale 3.  What does hold: the stored scale never
exceeds the requested one. -/

/-- C6 counterexample: `divide(1, 2, 3, HALF_EVEN)` returns a value whose
stored scale is 1, not the requested target scale 3. -/
theorem claim_C6_counterexample :
    BigDecimal.div ⟨1, 0⟩ ⟨2, 0⟩ (some 3) Rounding.HALF_EVEN = Except.ok ⟨5, 1⟩ ∧
    BigDecimal.scale ⟨5, 1⟩ ≠ 3 :=
  ⟨rfl, by decide⟩

/-- C6 (amended): for every dividend, nonzero divisor, rounding mode and given
target scale, the value returned by `div` has scale at most the target scale
(the constructor's trailing-zero normalization may lower it). -/
theorem claim_C6 (a b : BigDecimal) (t : ℕ) (m : Rounding) (v : BigDecimal)
    (h : BigDecimal.div a b (some t) m = Except.ok v) : v.scale ≤ t := by
  simp only [BigDecimal.div] at h
  split at h
  · cases h
  · split at h
    · cases h
      exact make_scale_le _ t
    · cases h
      exact make_scale_le _ t

theorem claim_C6_witness : BigDecimal.scale ⟨5, 1⟩ ≤ 3 :=
  claim_C6 ⟨1, 0⟩ ⟨2, 0⟩ 3 Rounding.HALF_EVEN ⟨5, 1⟩ rfl

/-! ### Claim C5 — rounding boundary and HALF_EVEN policy -/

theorem tmod_two_zero_iff (q : ℤ) : Int.tmod q 2 = 0 ↔ (2 : ℤ) ∣ q :=
  ⟨Int.dvd_of_tmod_eq_zero, Int.tmod_eq_zero_of_dvd⟩

/-- Characterization of `#applyRounding` under `HALF_EVEN` for a positive
divisor: round away from zero only when twice the discarded remainder exceeds
the divisor; on an exact tie keep the quotient when it is even, otherwise move
one unit away from zero. -/
theorem applyRounding_half_even (q r d : ℤ) (pos : Bool) (hd : 0 < d) :
    applyRounding q r d Rounding.HALF_EVEN pos =
      (if 2 * r.natAbs > d.natAbs then q + (if pos then 1 else -1)
       else if 2 * r.natAbs = d.natAbs then
         (if (2 : ℤ) ∣ q then q else q + (if pos then 1 else -1))
       else q) := by
  by_cases hr0 : r = 0
  · subst hr0
    have h0 : (0 : ℤ).natAbs = 0 := rfl
    rw [applyRounding, if_pos rfl, if_neg (by omega), if_neg (by omega)]
  · rw [applyRounding, if_neg hr0]
    simp only []
    have habsr : (if r < 0 then -r else r) = ((r.natAbs : ℕ) : ℤ) := by split <;> omega
    have habsd : (if d < 0 then -d else d) = ((d.natAbs : ℕ) : ℤ) := by split <;> omega
    rw [habsr, habsd]
    have hgtIff : (2 * ((r.natAbs : ℕ) : ℤ) > ((d.natAbs : ℕ) : ℤ)) ↔ 2 * r.natAbs > d.natAbs := by
      omega
    have heqIff : (2 * ((r.natAbs : ℕ) : ℤ) = ((d.natAbs : ℕ) : ℤ)) ↔ 2 * r.natAbs = d.natAbs := by
      omega
    simp only [hgtIff, heqIff, tmod_two_zero_iff]

/-- C5: rescaling `0.5` to scale 0 gives 1 under HALF_UP and 0 under
HALF_EVEN; rescaling `1.5` to scale 0 gives 2 under both; and in general,
rescaling under HALF_EVEN moves away from zero exactly when twice the
discarded remainder exceeds one unit at the new scale, keeps the quotient when
it falls short, and on an exact tie picks the neighbor with the even last
digit (so the chosen unscaled value is always even on a tie). -/
theorem claim_C5 :
    (fromChars ['0', '.', '5'] = some ⟨5, 1⟩ ∧
      BigDecimal.setScale ⟨5, 1⟩ 0 Rounding.HALF_UP = ⟨1, 0⟩ ∧
      BigDecimal.setScale ⟨5, 1⟩ 0 Rounding.HALF_EVEN = ⟨0, 0⟩) ∧
    (fromChars ['1', '.', '5'] = some ⟨15, 1⟩ ∧
      BigDecimal.setScale ⟨15, 1⟩ 0 Rounding.HALF_UP = ⟨2, 0⟩ ∧
      BigDecimal.setScale ⟨15, 1⟩ 0 Rounding.HALF_EVEN = ⟨2, 0⟩) ∧
    (∀ (v : BigDecimal) (t : ℕ) (q r sgn : ℤ), t < v.scale →
      q = Int.tdiv v.unscaled (tenPow (v.scale - t)) →
      r = Int.tmod v.unscaled (tenPow (v.scale - t)) →
      sgn = (if 0 ≤ v.unscaled then 1 else -1) →
      (2 * r.natAbs < 10 ^ (v.scale - t) →
        BigDecimal.setScale v t Rounding.HALF_EVEN = BigDecimal.make q t) ∧
      (2 * r.natAbs > 10 ^ (v.scale - t) →
        BigDecimal.setScale v t Rounding.HALF_EVEN = BigDecimal.make (q + sgn) t) ∧
      (2 * r.natAbs = 10 ^ (v.scale - t) →
        BigDecimal.setScale v t Rounding.HALF_EVEN =
          BigDecimal.make (if (2 : ℤ) ∣ q then q else q + sgn) t ∧
        (2 : ℤ) ∣ (if (2 : ℤ) ∣ q then q else q + sgn))) := by
  refine ⟨⟨by decide, by decide, by decide⟩, ⟨by decide, by decide, by decide⟩, ?_⟩
  intro v t q r sgn ht hq hr hsgn
  have hfacpos : (0 : ℤ) < tenPow (v.scale - t) := by unfold tenPow; positivity
  have hfacabs : (tenPow (v.scale - t)).natAbs = 10 ^ (v.scale - t) := by
    unfold tenPow
    rw [Int.natAbs_pow]
    rfl
  have hsgn2 : (if (decide (v.unscaled ≥ 0) : Bool) then (1 : ℤ) else -1) = sgn := by
    rw [hsgn]
    by_cases h0 : 0 ≤ v.unscaled
    · rw [if_pos (by simpa using h0), if_pos h0]
    · rw [if_neg (by simpa using h0), if_neg h0]
  rw [BigDecimal.setScale, if_neg (by omega), if_neg (by omega)]
  simp only []
  rw [applyRounding_half_even _ _ _ _ hfacpos, hfacabs, ← hq, ← hr, hsgn2]
  refine ⟨fun hlt => ?_, fun hgt => ?_, fun heq => ?_⟩
  · rw [if_neg (by omega), if_neg (by omega)]
  · rw [if_pos (by omega)]
  · rw [if_neg (by omega), if_pos (by omega)]
    refine ⟨rfl, ?_⟩
    by_cases hq2 : (2 : ℤ) ∣ q
    · rw [if_pos hq2]; exact hq2
    · rw [if_neg hq2]
      rw [hsgn]
      by_cases h0 : 0 ≤ v.unscaled
      · rw [if_pos h0]; omega
      · rw [if_neg h0]; omega

theorem claim_C5_witness :
    BigDecimal.setScale ⟨7, 2⟩ 0 Rounding.HALF_EVEN = BigDecimal.make (Int.tdiv 7 (tenPow 2)) 0 :=
  ((claim_C5.2.2 ⟨7, 2⟩ 0 (Int.tdiv 7 (tenPow 2)) (Int.tmod 7 (tenPow 2))
      1 (by decide) rfl rfl (by decide)).1 (by decide))

/-! ### Claim C7 — representation invariant -/

/-- The representation invariant of §3: the scale is a non-negative integer,
and the zero value is always stored with scale 0. -/
def reprInvariant (v : BigDecimal) : Prop :=
  0 ≤ (v.scale : ℤ) ∧ (v.unscaled = 0 → v.scale = 0)

theorem make_reprInvariant (u : ℤ) (s : ℕ) : reprInvariant (BigDecimal.make u s) :=
  ⟨by positivity, make_inv u s⟩

theorem setScale_reprInvariant (v : BigDecimal) (t : ℕ) (m : Rounding) :
    reprInvariant (BigDecimal.setScale v t m) := by
  unfold BigDecimal.setScale
  split
  · exact make_reprInvariant _ _
  · split
    · exact make_reprInvariant _ _
    · exact make_reprInvariant _ _

/-- C7: every decimal value produced by parsing, by lifting an integer, or by
any arithmetic operation satisfies the representation invariant (`scale` is a
non-negative integer — enforced by its `Nat` type, restated as a cast
inequality — and a zero unscaled value forces scale 0). -/
theorem claim_C7 :
    (∀ (l : List Char) (v : BigDecimal), fromChars l = some v → reprInvariant v) ∧
    (∀ n : ℤ, reprInvariant (fromInt n)) ∧
    (∀ a b : BigDecimal, reprInvariant (a.add b)) ∧
    (∀ a b : BigDecimal, reprInvariant (a.sub b)) ∧
    (∀ a b : BigDecimal, reprInvariant (a.mul b)) ∧
    (∀ (a b : BigDecimal) (sc : Option ℕ) (m : Rounding) (v : BigDecimal),
        BigDecimal.div a b sc m = Except.ok v → reprInvariant v) ∧
    (∀ (v : BigDecimal) (t : ℕ) (m : Rounding), reprInvariant (v.setScale t m)) ∧
    (∀ (v : BigDecimal) (s : ℕ) (m : Rounding) (w : BigDecimal),
        BigDecimal.sqrt v s m = Except.ok w → reprInvariant w) := by
  refine ⟨?_, fun n => make_reprInvariant _ _, fun a b => make_reprInvariant _ _,
    fun a b => make_reprInvariant _ _, fun a b => make_reprInvariant _ _, ?_,
    setScale_reprInvariant, ?_⟩
  · intro l v h
    simp only [fromChars] at h
    split at h <;> (try split at h) <;> cases h <;> exact make_reprInvariant _ _
  · intro a b sc m v h
    simp only [BigDecimal.div] at h
    split at h
    · cases h
    · split at h
      · split at h
        · split at h
          · cases h
          · cases h
            exact make_reprInvariant _ _
        · split at h
          · cases h
          · split at h
            · cases h
            · cases h
              exact make_reprInvariant _ _
      · split at h
        · cases h
          exact make_reprInvariant _ _
        · cases h
          exact make_reprInvariant _ _
  · intro v s m w h
    simp only [BigDecimal.sqrt] at h
    split at h
    · cases h
    · split at h
      · cases h
        exact ⟨by norm_num, fun _ => rfl⟩
      · cases h
        exact setScale_reprInvariant _ _ _

theorem claim_C7_witness : reprInvariant ⟨5, 1⟩ :=
  claim_C7.2.2.2.2.2.1 ⟨1, 0⟩ ⟨2, 0⟩ (some 3) Rounding.HALF_EVEN ⟨5, 1⟩ rfl

/-! ### Claim C9 — iteration caps of the decimal Newton square roots

The Newton loop of `BigNumber.sqrt` is hard-capped at 100 iterations and the
driver's `sqrt` loop runs exactly `scale` iterations.  The caps hold — but they
do not make `sqrt` terminate on every non-negative input: the inner division's
subtraction loop need not terminate.  On input `"0.0"` the driver's first
Newton step divides `"0.0"` by `"0.0"`; that divisor passes the zero guard
(which only checks the literals `"0"`/`"-0"`), its digits normalize to the
divisor string `"0"`, and the subtraction loop runs forever. -/

theorem bnSqrtLoop_steps (dfuel : ℕ) (n : List Char) (ip prec : ℕ) :
    ∀ (f : ℕ) (x lastX : List Char) (st : ℕ),
      (bnSqrtLoop dfuel n ip prec f x lastX st).2 ≤ st + f := by
  intro f
  induction f with
  | zero =>
    intro x lx st
    rw [bnSqrtLoop]
    omega
  | succ f ih =>
    intro x lx st
    rw [bnSqrtLoop]
    split
    · exact (by omega : st ≤ st + (f + 1))
    · split
      · split
        · simp only []
          split
          · exact (by omega : st + 1 ≤ st + (f + 1))
          · exact le_trans (ih _ _ (st + 1)) (by omega)
        · exact (by omega : st + 1 ≤ st + (f + 1))
      · exact (by omega : st + 1 ≤ st + (f + 1))

theorem bnSqrt_le_100 (dfuel : ℕ) (n : List Char) (p : ℕ) : (bnSqrt dfuel n p).2 ≤ 100 := by
  rw [bnSqrt]
  split
  · exact Nat.zero_le 100
  · split
    · exact Nat.zero_le 100
    · simp only []
      have hb := bnSqrtLoop_steps dfuel n (p + 5) p 100
        ('1' :: (if (splitIF n).1.length > 1 then List.replicate (((splitIF n).1.length - 1) / 2) '0' else []))
        [] 0
      split
      · next steps heq => rw [heq] at hb; exact hb
      · next x steps heq => rw [heq] at hb; exact hb

theorem driverSqrtLoop_le (dfuel : ℕ) (n : List Char) (scale : ℕ) :
    ∀ (k : ℕ) (x : List Char),
      (driverSqrtLoop dfuel n scale k x).2 ≤ k ∧
      (∀ r, (driverSqrtLoop dfuel n scale k x).1 = some r →
        (driverSqrtLoop dfuel n scale k x).2 = k) := by
  intro k
  induction k with
  | zero =>
    intro x
    exact ⟨le_rfl, fun r _ => rfl⟩
  | succ k ih =>
    intro x
    rw [driverSqrtLoop]
    split
    · split
      · next x1 heq2 =>
        simp only []
        constructor
        · have h1 := (ih x1).1
          exact (by omega : (driverSqrtLoop dfuel n scale k x1).2 + 1 ≤ k + 1)
        · intro r hr
          have hr2 : (driverSqrtLoop dfuel n scale k x1).1 = some r := hr
          have h2 := (ih x1).2 r hr2
          exact (by omega : (driverSqrtLoop dfuel n scale k x1).2 + 1 = k + 1)
      · exact ⟨(by omega : 1 ≤ k + 1), fun r hr => Option.noConfusion hr⟩
    · exact ⟨(by omega : 1 ≤ k + 1), fun r hr => Option.noConfusion hr⟩

theorem bnDivide_00_by_00_stuck :
    ∀ fuel, bnDivide fuel ['0', '.', '0'] ['0', '.', '0'] 50 = BNOut.noFuel := by
  intro fuel
  have hloop : ∀ fl, bnDivLoop 1 (['0'] ++ List.replicate 55 '0') ['0'] 50 fl [] [] 0 0 = none := by
    refine bnDivLoop_stuck 1 _ ['0'] 50 [] [] 0 0 (by norm_num) ?_
    have h0 : ([] : List Char) ++ stockAt (['0'] ++ List.replicate 55 '0') 0 = ['0'] := by decide
    rw [h0]
    exact bnDivInner_stuck (by decide) (by decide)
  cases fuel with
  | zero => rfl
  | succ f =>
    show (match bnDivLoop 1 (['0'] ++ List.replicate 55 '0') ['0'] 50 (f + 1) [] [] 0 0 with
          | none => BNOut.noFuel
          | some q =>
              let q1 := bnNormalize q
              let q2 := if q1 = [] then ['0'] else q1
              let q3 := if q2 = ['.'] then ['0'] else q2
              let q4 := if q3.head? = some '.' then '0' :: q3 else q3
              let q5 := if q4.getLast? = some '.' then q4 ++ ['0'] else q4
              BNOut.ok ([] ++ q5)) = BNOut.noFuel
    rw [hloop (f + 1)]

theorem driverSqrt_00_diverges : ∀ dfuel, driverSqrt dfuel ['0', '.', '0'] 50 = none := by
  intro dfuel
  have h1 : driverSqrtLoop dfuel ['0', '.', '0'] 50 (49 + 1) ['0', '.', '0'] = (none, 1) := by
    rw [driverSqrtLoop, bnDivide_00_by_00_stuck dfuel]
  rw [driverSqrt, show (50 : ℕ) = 49 + 1 from rfl, h1]

/-- C9: the Newton loop of `BigNumber.sqrt` executes at most 100 iterations on
every input, and the driver's `sqrt` loop executes at most `scale` iterations
and exactly `scale` of them whenever it returns a value; but the iteration
caps do not make `sqrt` terminate on every non-negative input — on `"0.0"` the
driver `sqrt` diverges inside `BigNumber.divide` for every fuel value, because
the zero-divisor guard misses the spelling `"0.0"`. -/
theorem claim_C9 :
    (∀ (dfuel : ℕ) (n : List Char) (p : ℕ), (bnSqrt dfuel n p).2 ≤ 100) ∧
    (∀ (dfuel : ℕ) (n : List Char) (scale : ℕ), driverSqrtSteps dfuel n scale ≤ scale) ∧
    (∀ (dfuel : ℕ) (n : List Char) (scale : ℕ) (r : List Char),
        (driverSqrtLoop dfuel n scale scale n).1 = some r →
        driverSqrtSteps dfuel n scale = scale) ∧
    (∀ dfuel, driverSqrt dfuel ['0', '.', '0'] 50 = none) :=
  ⟨bnSqrt_le_100,
   fun dfuel n scale => (driverSqrtLoop_le dfuel n scale scale n).1,
   fun dfuel n scale r hr => (driverSqrtLoop_le dfuel n scale scale n).2 r hr,
   driverSqrt_00_diverges⟩

theorem claim_C9_witness : driverSqrtSteps 100 ['4'] 1 = 1 :=
  claim_C9.2.2.1 100 ['4'] 1 ['2'] (by decide)

/-! ### Claim C8 — parse/format round trip

Strategy: every successfully parsed value is built by the normalizing
constructor; formatting such a value and re-parsing it gives back exactly the
same `BigDecimal`, so the formatted text compares numerically equal to the
original literal. -/

theorem digitChar_props : ∀ d, d < 10 →
    isDigitCh (Nat.digitChar d) = true ∧ Nat.digitChar d ≠ '.' ∧
      Nat.digitChar d ≠ '-' ∧ Nat.digitChar d ≠ '+' ∧
      isSpaceCh (Nat.digitChar d) = false ∧ (Nat.digitChar d = '0' ↔ d = 0) := by
  decide

theorem dropWhile_eq_self {p : Char → Bool} {l : List Char}
    (h : ∀ c ∈ l, p c = false) : l.dropWhile p = l := by
  cases l with
  | nil => rfl
  | cons a l => rw [List.dropWhile_cons, if_neg (by rw [h a (by simp)]; simp)]

theorem trim_eq_self {l : List Char} (h : ∀ c ∈ l, isSpaceCh c = false) :
    trimChars l = l := by
  unfold trimChars
  rw [dropWhile_eq_self h, dropWhile_eq_self (fun c hc => h c (List.mem_reverse.mp hc)),
    List.reverse_reverse]

theorem takeWhile_eq_self {p : Char → Bool} {l : List Char}
    (h : ∀ c ∈ l, p c = true) : l.takeWhile p = l := by
  induction l with
  | nil => rfl
  | cons a l ih =>
    rw [List.takeWhile_cons, if_pos (h a (by simp))]
    rw [ih (fun c hc => h c (by simp [hc]))]

theorem dropWhile_eq_nil {p : Char → Bool} {l : List Char}
    (h : ∀ c ∈ l, p c = true) : l.dropWhile p = [] := by
  induction l with
  | nil => rfl
  | cons a l ih =>
    rw [List.dropWhile_cons, if_pos (h a (by simp))]
    exact ih (fun c hc => h c (by simp [hc]))

theorem takeWhile_append_cons {p : Char → Bool} {X : List Char} {b : Char} {Y : List Char}
    (hX : ∀ c ∈ X, p c = true) (hb : p b = false) :
    (X ++ b :: Y).takeWhile p = X := by
  induction X with
  | nil => simp [List.takeWhile_cons, hb]
  | cons a X ih =>
    rw [List.cons_append, List.takeWhile_cons, if_pos (hX a (by simp))]
    rw [ih (fun c hc => hX c (by simp [hc]))]

theorem dropWhile_append_cons {p : Char → Bool} {X : List Char} {b : Char} {Y : List Char}
    (hX : ∀ c ∈ X, p c = true) (hb : p b = false) :
    (X ++ b :: Y).dropWhile p = b :: Y := by
  induction X with
  | nil => simp [List.dropWhile_cons, hb]
  | cons a X ih =>
    rw [List.cons_append, List.dropWhile_cons, if_pos (hX a (by simp))]
    exact ih (fun c hc => hX c (by simp [hc]))

theorem natFromDigits_zeros_append (k : ℕ) (l : List Char) :
    natFromDigits (List.replicate k '0' ++ l) = natFromDigits l := by
  induction k with
  | zero => rfl
  | succ k ih =>
    rw [List.replicate_succ, List.cons_append]
    exact ih

theorem natFromDigits_stripLZ (l : List Char) :
    natFromDigits (stripLZ l) = natFromDigits l := by
  unfold stripLZ
  have hsplit := List.takeWhile_append_dropWhile (fun c => (c = '0' : Bool)) l
  have htw : ∀ c ∈ l.takeWhile (fun c => (c = '0' : Bool)), c = '0' := by
    intro c hc
    have := List.mem_takeWhile_imp hc
    simpa using this
  have hrep : l.takeWhile (fun c => (c = '0' : Bool)) =
      List.replicate (l.takeWhile (fun c => (c = '0' : Bool))).length '0' :=
    List.eq_replicate_of_mem htw
  have hrepz : ∀ k, natFromDigits (List.replicate k '0') = 0 := by
    intro k
    have h2 := natFromDigits_zeros_append k []
    rw [List.append_nil] at h2
    exact h2
  by_cases ht : l.dropWhile (fun c => (c = '0' : Bool)) = []
  · rw [if_pos ht]
    have hl0 : natFromDigits l = 0 := by
      rw [← hsplit, ht, List.append_nil, hrep, hrepz]
    rw [hl0]
    rfl
  · rw [if_neg ht]
    conv_rhs => rw [← hsplit]
    rw [hrep, natFromDigits_zeros_append]

theorem fromChars_digits (D : List Char)
    (hmem : ∀ c ∈ D, ∃ d, d < 10 ∧ c = Nat.digitChar d) (hne : D ≠ []) :
    fromChars D = some (BigDecimal.make ((natFromDigits D : ℕ) : ℤ) 0) := by
  have hprops : ∀ c ∈ D, isDigitCh c = true ∧ c ≠ '.' ∧ c ≠ '-' ∧ c ≠ '+' ∧
      isSpaceCh c = false := by
    intro c hc
    obtain ⟨d, hd, rfl⟩ := hmem c hc
    have hp := digitChar_props d hd
    exact ⟨hp.1, hp.2.1, hp.2.2.1, hp.2.2.2.1, hp.2.2.2.2.1⟩
  have htrim : trimChars D = D := trim_eq_self (fun c hc => (hprops c hc).2.2.2.2)
  obtain ⟨c0, D', rfl⟩ : ∃ c0 D', D = c0 :: D' := by
    rcases D with _ | ⟨a, l⟩
    · exact absurd rfl hne
    · exact ⟨a, l, rfl⟩
  have hc0 := hprops c0 (by simp)
  have hneg : ¬ ((c0 :: D').head? = some '-') := by
    simp only [List.head?_cons, Option.some.injEq]
    exact hc0.2.2.1
  have hplus : ¬ ((c0 :: D').head? = some '+') := by
    simp only [List.head?_cons, Option.some.injEq]
    exact hc0.2.2.2.1
  have hnodot : ∀ c ∈ c0 :: D', (fun c => (c ≠ '.' : Bool)) c = true := by
    intro c hc
    simpa using (hprops c hc).2.1
  simp only [fromChars]
  rw [htrim,
    if_neg (show ¬ ((c0 :: D').head? = some '-' ∨ (c0 :: D').head? = some '+') from
      fun h => h.elim hneg hplus),
    takeWhile_eq_self hnodot, dropWhile_eq_nil hnodot]
  simp only [List.tail_nil, List.length_nil, List.all_nil, and_true]
  rw [if_pos (List.all_eq_true.mpr (fun c hc => (hprops c hc).1)),
    if_neg hneg, if_neg (List.cons_ne_nil c0 D'), List.append_nil, one_mul,
    natFromDigits_stripLZ]

theorem fromChars_neg_digits (D : List Char)
    (hmem : ∀ c ∈ D, ∃ d, d < 10 ∧ c = Nat.digitChar d) (hne : D ≠ []) :
    fromChars ('-' :: D) = some (BigDecimal.make (-((natFromDigits D : ℕ) : ℤ)) 0) := by
  have hprops : ∀ c ∈ D, isDigitCh c = true ∧ c ≠ '.' ∧ c ≠ '-' ∧ c ≠ '+' ∧
      isSpaceCh c = false := by
    intro c hc
    obtain ⟨d, hd, rfl⟩ := hmem c hc
    have hp := digitChar_props d hd
    exact ⟨hp.1, hp.2.1, hp.2.2.1, hp.2.2.2.1, hp.2.2.2.2.1⟩
  have htrim : trimChars ('-' :: D) = '-' :: D := by
    apply trim_eq_self
    intro c hc
    rcases List.mem_cons.mp hc with rfl | hc
    · decide
    · exact (hprops c hc).2.2.2.2
  have hnodot : ∀ c ∈ D, (fun c => (c ≠ '.' : Bool)) c = true := by
    intro c hc
    simpa using (hprops c hc).2.1
  have hhead : ('-' :: D).head? = some '-' := rfl
  simp only [fromChars]
  rw [htrim,
    if_pos (show ('-' :: D).head? = some '-' ∨ ('-' :: D).head? = some '+' from Or.inl hhead)]
  simp only [List.tail_cons]
  rw [takeWhile_eq_self hnodot, dropWhile_eq_nil hnodot]
  simp only [List.tail_nil, List.length_nil, List.all_nil, and_true]
  rw [if_pos (List.all_eq_true.mpr (fun c hc => (hprops c hc).1)), if_pos hhead, if_neg hne,
    List.append_nil, natFromDigits_stripLZ, neg_one_mul]

theorem fromChars_digits_dot (X Y : List Char)
    (hmemX : ∀ c ∈ X, ∃ d, d < 10 ∧ c = Nat.digitChar d)
    (hmemY : ∀ c ∈ Y, ∃ d, d < 10 ∧ c = Nat.digitChar d)
    (hne : X ≠ []) :
    fromChars (X ++ '.' :: Y) =
      some (BigDecimal.make ((natFromDigits (X ++ Y) : ℕ) : ℤ) Y.length) := by
  have hpropsX : ∀ c ∈ X, isDigitCh c = true ∧ c ≠ '.' ∧ c ≠ '-' ∧ c ≠ '+' ∧
      isSpaceCh c = false := by
    intro c hc
    obtain ⟨d, hd, rfl⟩ := hmemX c hc
    have hp := digitChar_props d hd
    exact ⟨hp.1, hp.2.1, hp.2.2.1, hp.2.2.2.1, hp.2.2.2.2.1⟩
  have hpropsY : ∀ c ∈ Y, isDigitCh c = true ∧ c ≠ '.' ∧ c ≠ '-' ∧ c ≠ '+' ∧
      isSpaceCh c = false := by
    intro c hc
    obtain ⟨d, hd, rfl⟩ := hmemY c hc
    have hp := digitChar_props d hd
    exact ⟨hp.1, hp.2.1, hp.2.2.1, hp.2.2.2.1, hp.2.2.2.2.1⟩
  have htrim : trimChars (X ++ '.' :: Y) = X ++ '.' :: Y := by
    apply trim_eq_self
    intro c hc
    rcases List.mem_append.mp hc with hc | hc
    · exact (hpropsX c hc).2.2.2.2
    · rcases List.mem_cons.mp hc with rfl | hc
      · decide
      · exact (hpropsY c hc).2.2.2.2
  obtain ⟨c0, X', rfl⟩ : ∃ c0 X', X = c0 :: X' := by
    rcases X with _ | ⟨a, l⟩
    · exact absurd rfl hne
    · exact ⟨a, l, rfl⟩
  have hc0 := hpropsX c0 (by simp)
  have hhead : ((c0 :: X') ++ '.' :: Y).head? = some c0 := by
    rw [List.cons_append, List.head?_cons]
  have hneg : ¬ (((c0 :: X') ++ '.' :: Y).head? = some '-') := by
    rw [hhead]
    simp only [Option.some.injEq]
    exact hc0.2.2.1
  have hplus : ¬ (((c0 :: X') ++ '.' :: Y).head? = some '+') := by
    rw [hhead]
    simp only [Option.some.injEq]
    exact hc0.2.2.2.1
  have hXtrue : ∀ c ∈ c0 :: X', (fun c => (c ≠ '.' : Bool)) c = true := by
    intro c hc
    simpa using (hpropsX c hc).2.1
  have hdotfalse : (fun c => (c ≠ '.' : Bool)) '.' = false := by decide
  simp only [fromChars]
  rw [htrim,
    if_neg (show ¬ (((c0 :: X') ++ '.' :: Y).head? = some '-' ∨
        ((c0 :: X') ++ '.' :: Y).head? = some '+') from fun h => h.elim hneg hplus),
    takeWhile_append_cons hXtrue hdotfalse, dropWhile_append_cons hXtrue hdotfalse]
  simp only [List.tail_cons]
  rw [if_pos (⟨List.all_eq_true.mpr (fun c hc => (hpropsX c hc).1),
        List.all_eq_true.mpr (fun c hc => (hpropsY c hc).1)⟩ :
      (c0 :: X').all isDigitCh = true ∧ Y.all isDigitCh = true),
    if_neg hneg, if_neg (List.cons_ne_nil c0 X'), natFromDigits_stripLZ, one_mul]

theorem fromChars_neg_digits_dot (X Y : List Char)
    (hmemX : ∀ c ∈ X, ∃ d, d < 10 ∧ c = Nat.digitChar d)
    (hmemY : ∀ c ∈ Y, ∃ d, d < 10 ∧ c = Nat.digitChar d)
    (hne : X ≠ []) :
    fromChars ('-' :: (X ++ '.' :: Y)) =
      some (BigDecimal.make (-((natFromDigits (X ++ Y) : ℕ) : ℤ)) Y.length) := by
  have hpropsX : ∀ c ∈ X, isDigitCh c = true ∧ c ≠ '.' ∧ c ≠ '-' ∧ c ≠ '+' ∧
      isSpaceCh c = false := by
    intro c hc
    obtain ⟨d, hd, rfl⟩ := hmemX c hc
    have hp := digitChar_props d hd
    exact ⟨hp.1, hp.2.1, hp.2.2.1, hp.2.2.2.1, hp.2.2.2.2.1⟩
  have hpropsY : ∀ c ∈ Y, isDigitCh c = true ∧ c ≠ '.' ∧ c ≠ '-' ∧ c ≠ '+' ∧
      isSpaceCh c = false := by
    intro c hc
    obtain ⟨d, hd, rfl⟩ := hmemY c hc
    have hp := digitChar_props d hd
    exact ⟨hp.1, hp.2.1, hp.2.2.1, hp.2.2.2.1, hp.2.2.2.2.1⟩
  have htrim : trimChars ('-' :: (X ++ '.' :: Y)) = '-' :: (X ++ '.' :: Y) := by
    apply trim_eq_self
    intro c hc
    rcases List.mem_cons.mp hc with rfl | hc
    · decide
    · rcases List.mem_append.mp hc with hc | hc
      · exact (hpropsX c hc).2.2.2.2
      · rcases List.mem_cons.mp hc with rfl | hc
        · decide
        · exact (hpropsY c hc).2.2.2.2
  have hXtrue : ∀ c ∈ X, (fun c => (c ≠ '.' : Bool)) c = true := by
    intro c hc
    simpa using (hpropsX c hc).2.1
  have hdotfalse : (fun c => (c ≠ '.' : Bool)) '.' = false := by decide
  have hhead : ('-' :: (X ++ '.' :: Y)).head? = some '-' := rfl
  simp only [fromChars]
  rw [htrim,
    if_pos (show ('-' :: (X ++ '.' :: Y)).head? = some '-' ∨
        ('-' :: (X ++ '.' :: Y)).head? = some '+' from Or.inl hhead)]
  simp only [List.tail_cons]
  rw [takeWhile_append_cons hXtrue hdotfalse, dropWhile_append_cons hXtrue hdotfalse]
  simp only [List.tail_cons]
  rw [if_pos (⟨List.all_eq_true.mpr (fun c hc => (hpropsX c hc).1),
        List.all_eq_true.mpr (fun c hc => (hpropsY c hc).1)⟩ :
      X.all isDigitCh = true ∧ Y.all isDigitCh = true),
    if_pos hhead, if_neg hne, natFromDigits_stripLZ, neg_one_mul]

theorem natToChars_ne_nil (m : ℕ) : natToChars m ≠ [] := by
  unfold natToChars
  by_cases h : m = 0
  · rw [if_pos h]
    exact List.cons_ne_nil _ _
  · rw [if_neg h, natDigitsLE_eq]
    intro hc
    have hd : Nat.digits 10 m = [] := by
      have h2 := congrArg List.length hc
      simp at h2
      exact h2
    exact h (Nat.digits_eq_nil_iff_eq_zero.mp hd)

/-- For a nonzero value whose last decimal digit is nonzero, the trailing-zero
strip in `toString`'s padded branch is a no-op. -/
theorem stripTrail_eq {m : ℕ} (hm : m ≠ 0) (h10 : m % 10 ≠ 0) :
    ((natToChars m).reverse.dropWhile (fun c => (c = '0' : Bool))).reverse = natToChars m := by
  have hD : natToChars m = (Nat.digits 10 m).reverse.map Nat.digitChar := by
    unfold natToChars
    rw [if_neg hm, natDigitsLE_eq]
  have hrev : (natToChars m).reverse = (Nat.digits 10 m).map Nat.digitChar := by
    rw [hD, ← List.map_reverse, List.reverse_reverse]
  have hdig : Nat.digits 10 m = m % 10 :: Nat.digits 10 (m / 10) :=
    Nat.digits_def' (by norm_num) (Nat.pos_of_ne_zero hm)
  have hhead : Nat.digitChar (m % 10) ≠ '0' := by
    intro hc
    exact h10 (((digitChar_props (m % 10) (Nat.mod_lt m (by norm_num))).2.2.2.2.2).mp hc)
  rw [hrev, hdig, List.map_cons, List.dropWhile_cons,
    if_neg (by simpa using hhead), ← List.map_cons, ← hdig, ← hrev, List.reverse_reverse]
/-- Formatting a value produced by the normalizing constructor and re-parsing
it returns exactly the same value. -/
theorem from_toChars (v : BigDecimal)
    (hz : v.unscaled = 0 → v.scale = 0)
    (hn : v.scale = 0 ∨ Int.tmod v.unscaled 10 ≠ 0) :
    fromChars (toChars v) = some v := by
  rcases v with ⟨u, s⟩
  simp only at hz hn
  by_cases hu : u = 0
  · subst hu
    rw [hz rfl]
    decide
  · have hm0 : u.natAbs ≠ 0 := by omega
    have hmemD : ∀ c ∈ natToChars u.natAbs, ∃ d, d < 10 ∧ c = Nat.digitChar d :=
      fun c hc => natToChars_digit_mem hc
    have hDne : natToChars u.natAbs ≠ [] := natToChars_ne_nil u.natAbs
    simp only [toChars]
    rw [if_neg hu]
    by_cases hs : s = 0
    · subst hs
      rw [if_pos rfl]
      by_cases hneg : u < 0
      · rw [if_pos hneg, List.singleton_append,
          fromChars_neg_digits _ hmemD hDne, natFromDigits_natToChars,
          show -((u.natAbs : ℕ) : ℤ) = u by omega, make_fix hu (Or.inl rfl)]
      · rw [if_neg hneg, List.nil_append,
          fromChars_digits _ hmemD hDne, natFromDigits_natToChars,
          show ((u.natAbs : ℕ) : ℤ) = u by omega, make_fix hu (Or.inl rfl)]
    · have h10 : Int.tmod u 10 ≠ 0 := hn.resolve_left hs
      have hmod : u.natAbs % 10 ≠ 0 := by
        intro hc
        apply h10
        apply Int.tmod_eq_zero_of_dvd
        rw [← Int.natAbs_dvd_natAbs]
        exact Nat.dvd_iff_mod_eq_zero.mpr hc
      rw [if_neg hs]
      by_cases hlen : (natToChars u.natAbs).length ≤ s
      · rw [if_pos hlen, stripTrail_eq hm0 hmod]
        have hX0 : ∀ c ∈ ['0'], ∃ d, d < 10 ∧ c = Nat.digitChar d := by
          intro c hc
          rw [List.mem_singleton.mp hc]
          exact ⟨0, by norm_num, rfl⟩
        have hY : ∀ c ∈ List.replicate (s - (natToChars u.natAbs).length) '0' ++
            natToChars u.natAbs, ∃ d, d < 10 ∧ c = Nat.digitChar d := by
          intro c hc
          rcases List.mem_append.mp hc with hc | hc
          · rw [List.eq_of_mem_replicate hc]
            exact ⟨0, by norm_num, rfl⟩
          · exact natToChars_digit_mem hc
        have hval : natFromDigits ('0' :: (List.replicate (s - (natToChars u.natAbs).length) '0'
            ++ natToChars u.natAbs)) = u.natAbs := by
          have hrep : ('0' : Char) :: (List.replicate (s - (natToChars u.natAbs).length) '0' ++
              natToChars u.natAbs) =
              List.replicate (s - (natToChars u.natAbs).length + 1) '0' ++
                natToChars u.natAbs := by
            rw [List.replicate_succ, List.cons_append]
          rw [hrep, natFromDigits_zeros_append, natFromDigits_natToChars]
        have hZlen : (List.replicate (s - (natToChars u.natAbs).length) '0' ++
            natToChars u.natAbs).length = s := by
          rw [List.length_append, List.length_replicate]
          omega
        by_cases hneg : u < 0
        · rw [if_pos hneg, List.singleton_append]
          have key := fromChars_neg_digits_dot ['0'] _ hX0 hY (List.cons_ne_nil '0' [])
          rw [List.singleton_append, List.singleton_append] at key
          rw [key, hval, hZlen, show -((u.natAbs : ℕ) : ℤ) = u by omega,
            make_fix hu (Or.inr h10)]
        · rw [if_neg hneg, List.nil_append]
          have key := fromChars_digits_dot ['0'] _ hX0 hY (List.cons_ne_nil '0' [])
          rw [List.singleton_append, List.singleton_append] at key
          rw [key, hval, hZlen, show ((u.natAbs : ℕ) : ℤ) = u by omega,
            make_fix hu (Or.inr h10)]
      · rw [if_neg hlen]
        have hpad : padEnd ((natToChars u.natAbs).drop ((natToChars u.natAbs).length - s)) s =
            (natToChars u.natAbs).drop ((natToChars u.natAbs).length - s) := by
          unfold padEnd
          rw [List.length_drop,
            show s - ((natToChars u.natAbs).length -
              ((natToChars u.natAbs).length - s)) = 0 by omega]
          rw [List.replicate_zero, List.append_nil]
        rw [hpad]
        have hXmem : ∀ c ∈ (natToChars u.natAbs).take ((natToChars u.natAbs).length - s),
            ∃ d, d < 10 ∧ c = Nat.digitChar d :=
          fun c hc => natToChars_digit_mem (List.take_subset _ _ hc)
        have hYmem : ∀ c ∈ (natToChars u.natAbs).drop ((natToChars u.natAbs).length - s),
            ∃ d, d < 10 ∧ c = Nat.digitChar d :=
          fun c hc => natToChars_digit_mem (List.drop_subset _ _ hc)
        have hXne : (natToChars u.natAbs).take ((natToChars u.natAbs).length - s) ≠ [] := by
          have hlt : (List.take ((natToChars u.natAbs).length - s)
              (natToChars u.natAbs)).length = (natToChars u.natAbs).length - s := by
            rw [List.length_take]
            omega
          intro hc
          rw [hc] at hlt
          simp at hlt
          omega
        have hdroplen : ((natToChars u.natAbs).drop
            ((natToChars u.natAbs).length - s)).length = s := by
          rw [List.length_drop]
          omega
        by_cases hneg : u < 0
        · rw [if_pos hneg, List.singleton_append,
            fromChars_neg_digits_dot _ _ hXmem hYmem hXne, List.take_append_drop,
            natFromDigits_natToChars, hdroplen,
            show -((u.natAbs : ℕ) : ℤ) = u by omega, make_fix hu (Or.inr h10)]
        · rw [if_neg hneg, List.nil_append,
            fromChars_digits_dot _ _ hXmem hYmem hXne, List.take_append_drop,
            natFromDigits_natToChars, hdroplen,
            show ((u.natAbs : ℕ) : ℤ) = u by omega, make_fix hu (Or.inr h10)]

theorem fromChars_gives_make (l : List Char) (v : BigDecimal) (h : fromChars l = some v) :
    ∃ u s, v = BigDecimal.make u s := by
  simp only [fromChars] at h
  split at h <;> (try split at h) <;> cases h <;> exact ⟨_, _, rfl⟩

theorem compareTo_self (v : BigDecimal) : BigDecimal.compareTo v v = 0 := by
  simp [BigDecimal.compareTo, alignScales]

/-- C8: for every string that parses successfully, formatting the parsed value
yields a string that parses back to a value comparing numerically equal (in
fact identical) to the parsed original — formatting loses no information on
constructed (normalized) values. -/
theorem claim_C8 (l : List Char) (v : BigDecimal) (h : fromChars l = some v) :
    ∃ w, fromChars (toChars v) = some w ∧ BigDecimal.compareTo w v = 0 := by
  obtain ⟨u, s, rfl⟩ := fromChars_gives_make l v h
  exact ⟨BigDecimal.make u s,
    from_toChars _ (make_inv u s) (make_norm u s), compareTo_self _⟩

theorem claim_C8_witness :
    ∃ w, fromChars (toChars ⟨123, 1⟩) = some w ∧ BigDecimal.compareTo w ⟨123, 1⟩ = 0 :=
  claim_C8 ['1', '2', '.', '3', '0'] ⟨123, 1⟩ (by decide)
